import Mathlib

/-!
Shallow embedding of `sse_utils.c` (vectorized elementwise arithmetic and
reduction kernels over arrays of floating-point numbers).

Modelling conventions:

* A buffer (`float *` / `double *`) is a total map `Int → α` from element
  indices to element values; the C functions index buffers with `int`
  expressions, so indices are `Int`.
* Floating-point values are abstracted to a type `α`; the single
  correctly-rounded IEEE addition (resp. multiplication) is an abstract
  binary operation `add` (resp. `mul`) on `α`.  The SIMD lane operations
  (`_mm256_add_ps`, `_mm_add_ps`, ...) apply exactly the same
  correctly-rounded operation independently in each lane as the scalar
  `+` / `*` on `float` / `double`, so the one abstract operation models
  all three tiers of a kernel.
* A 128-bit or 256-bit SIMD register holding `w` lanes is a map
  `Fin w → α`.  `_mm256_loadu_ps(&a[i])` loads lanes `a[i+k]`, `k < 8`;
  `_mm256_storeu_ps(&c[i], v)` writes `c[i+k] := v_k`, `k < 8`; and
  similarly for the other widths.
* The C `for` loops are embedded as structurally recursive functions on a
  fuel argument; each kernel passes `len.toNat + 1` units of fuel, which
  is proved sufficient (every loop advances its index by at least one per
  iteration from a start index `≥ 0`), so the embedding computes exactly
  the iterations the C loops perform.
-/

namespace SseUtils

variable {α : Type}

/-- A single scalar store `c[i] = v`. -/
def store (c : Int → α) (i : Int) (v : α) : Int → α :=
  fun j => if j = i then v else c j

/-- Unaligned SIMD load of `w` consecutive lanes starting at `a[i]`
(models `_mm256_loadu_ps`, `_mm_loadu_ps`, `_mm256_loadu_pd`,
`_mm_loadu_pd` at the appropriate lane count). -/
def mm_loadu (w : Nat) (a : Int → α) (i : Int) : Fin w → α :=
  fun k => a (i + (k.val : Int))

/-- Lane-wise application of a binary operation to two SIMD registers
(models `_mm256_add_ps`, `_mm_add_ps`, `_mm256_mul_ps`, ... : the
hardware applies the correctly-rounded operation independently per
lane). -/
def mm_map2 (f : α → α → α) (x y : Fin w → α) : Fin w → α :=
  fun k => f (x k) (y k)

/-- Unaligned SIMD store of the `w` lanes of `v` to `c[i..i+w)`
(models `_mm256_storeu_ps`, `_mm_storeu_ps`, ...). -/
def mm_storeu (w : Nat) (c : Int → α) (i : Int) (v : Fin w → α) : Int → α :=
  fun j => if h : i ≤ j ∧ j < i + (w : Int) then v ⟨(j - i).toNat, by omega⟩ else c j

/-- A SIMD register with every lane zero (models `_mm_setzero_ps`,
`_mm_setzero_pd`); the zero value is the abstract `z`. -/
def mm_setzero (w : Nat) (z : α) : Fin w → α := fun _ => z

/-- `_mm_hadd_ps x y = [x0+x1, x2+x3, y0+y1, y2+y3]`. -/
def mm_hadd_ps (add : α → α → α) (x y : Fin 4 → α) : Fin 4 → α :=
  fun k =>
    if k.val = 0 then add (x 0) (x 1)
    else if k.val = 1 then add (x 2) (x 3)
    else if k.val = 2 then add (y 0) (y 1)
    else add (y 2) (y 3)

/-- `_mm_hadd_pd x y = [x0+x1, y0+y1]`. -/
def mm_hadd_pd (add : α → α → α) (x y : Fin 2 → α) : Fin 2 → α :=
  fun k => if k.val = 0 then add (x 0) (x 1) else add (y 0) (y 1)

/-- `_mm_store_ss`: extract lane 0 of a 4-lane register. -/
def mm_store_ss (x : Fin 4 → α) : α := x 0

/-- `_mm_store_sd`: extract lane 0 of a 2-lane register. -/
def mm_store_sd (x : Fin 2 → α) : α := x 0

/-- One iteration of a SIMD elementwise-loop body at index `i`:
load `w` lanes from each input, combine lane-wise with `f`, store the
result to `c[i..i+w)`. -/
def simdStep (f : α → α → α) (w : Nat) (a b : Int → α) (c : Int → α) (i : Int) :
    Int → α :=
  mm_storeu w c i (mm_map2 f (mm_loadu w a i) (mm_loadu w b i))

/-- The SIMD tier loop `for (; i <= vlen; i += w) { load, op, store }` of
the elementwise kernels, with explicit fuel.  Returns the final buffer
and the final value of `i`. -/
def simdLoop (f : α → α → α) (w : Nat) (a b : Int → α) :
    Nat → (Int → α) → Int → Int → (Int → α) × Int
  | 0, c, i, _ => (c, i)
  | fuel + 1, c, i, vlen =>
    if i ≤ vlen then simdLoop f w a b fuel (simdStep f w a b c i) (i + (w : Int)) vlen
    else (c, i)

/-- The scalar tail loop `for (; i < len; i++) c[i] = f(a[i], b[i]);` of
the elementwise kernels, with explicit fuel. -/
def scalarLoop (f : α → α → α) (a b : Int → α) :
    Nat → (Int → α) → Int → Int → Int → α
  | 0, c, _, _ => c
  | fuel + 1, c, i, len =>
    if i < len then scalarLoop f a b fuel (store c i (f (a i) (b i))) (i + 1) len
    else c

/-- State of an elementwise kernel after its wide tier: the first loop of
`sse_utils_vadds` (etc.) run from `i = 0` with guard `i <= len - w1`. -/
def tier1 (f : α → α → α) (w1 : Nat) (c a b : Int → α) (len : Int) :
    (Int → α) × Int :=
  simdLoop f w1 a b (len.toNat + 1) c 0 (len - (w1 : Int))

/-- State after the narrow tier: the second loop, continuing from the
wide tier's final index with guard `i <= len - w2`. -/
def tier2 (f : α → α → α) (w1 w2 : Nat) (c a b : Int → α) (len : Int) :
    (Int → α) × Int :=
  simdLoop f w2 a b (len.toNat + 1) (tier1 f w1 c a b len).1
    (tier1 f w1 c a b len).2 (len - (w2 : Int))

/-- The three-tier elementwise kernel shared by the four
`sse_utils_v***` functions: wide SIMD tier (chunks of `w1`), narrow SIMD
tier (chunks of `w2`), then the scalar tail. -/
def vkernel (f : α → α → α) (w1 w2 : Nat) (c a b : Int → α) (len : Int) :
    Int → α :=
  scalarLoop f a b (len.toNat + 1) (tier2 f w1 w2 c a b len).1
    (tier2 f w1 w2 c a b len).2 len

/-- `sse_utils_vadds(c, a, b, len)` (sse_utils.c:89-121): elementwise
single-precision addition, tiers of 8 (`__m256`) then 4 (`__m128`) then
scalar; `add` is the correctly-rounded IEEE single-precision addition. -/
def sse_utils_vadds (add : α → α → α) (c a b : Int → α) (len : Int) : Int → α :=
  vkernel add 8 4 c a b len

/-- `sse_utils_vaddd(c, a, b, len)` (sse_utils.c:129-162): elementwise
double-precision addition, tiers of 4 (`__m256d`) then 2 (`__m128d`)
then scalar. -/
def sse_utils_vaddd (add : α → α → α) (c a b : Int → α) (len : Int) : Int → α :=
  vkernel add 4 2 c a b len

/-- `sse_utils_vmuls(c, a, b, len)` (sse_utils.c:170-202): elementwise
single-precision multiplication, tiers 8/4/scalar; `mul` is the
correctly-rounded IEEE single-precision multiplication. -/
def sse_utils_vmuls (mul : α → α → α) (c a b : Int → α) (len : Int) : Int → α :=
  vkernel mul 8 4 c a b len

/-- `sse_utils_vmuld(c, a, b, len)` (sse_utils.c:210-243): elementwise
double-precision multiplication, tiers 4/2/scalar. -/
def sse_utils_vmuld (mul : α → α → α) (c a b : Int → α) (len : Int) : Int → α :=
  vkernel mul 4 2 c a b len

/-- The accumulation loop of the sum kernels:
`for (; i <= vlen; i += w) sum_128 = add(sum_128, loadu(&a[i]))`,
with explicit fuel.  Returns the final accumulator register and index. -/
def sumLoop (add : α → α → α) (w : Nat) (a : Int → α) :
    Nat → (Fin w → α) → Int → Int → (Fin w → α) × Int
  | 0, acc, i, _ => (acc, i)
  | fuel + 1, acc, i, vlen =>
    if i ≤ vlen then
      sumLoop add w a fuel (mm_map2 add acc (mm_loadu w a i)) (i + (w : Int)) vlen
    else (acc, i)

/-- The scalar tail of the sum kernels:
`for (; i < len; i++) sum += a[i];`, with explicit fuel. -/
def tailLoop (add : α → α → α) (a : Int → α) : Nat → α → Int → Int → α
  | 0, s, _, _ => s
  | fuel + 1, s, i, len =>
    if i < len then tailLoop add a fuel (add s (a i)) (i + 1) len
    else s

/-- `sse_utils_sums(a, len)` (sse_utils.c:251-276): single-precision sum.
Zero-initialize a 4-lane accumulator, add chunks of 4 lane-wise while
`i <= len - 4`, horizontally fold with two `_mm_hadd_ps` passes, extract
lane 0, then add the remaining elements one at a time.  `z` is the
floating-point value `+0.0` produced by `_mm_setzero_ps`. -/
def sse_utils_sums (add : α → α → α) (z : α) (a : Int → α) (len : Int) : α :=
  let p := sumLoop add 4 a (len.toNat + 1) (mm_setzero 4 z) 0 (len - 4)
  let s1 := mm_hadd_ps add p.1 p.1
  let s2 := mm_hadd_ps add s1 s1
  tailLoop add a (len.toNat + 1) (mm_store_ss s2) p.2 len

/-- `sse_utils_sumd(a, len)` (sse_utils.c:284-308): double-precision sum.
Zero-initialize a 2-lane accumulator, add chunks of 2 lane-wise while
`i <= len - 2`, fold with one `_mm_hadd_pd` pass, extract lane 0, then
add the remaining elements one at a time. -/
def sse_utils_sumd (add : α → α → α) (z : α) (a : Int → α) (len : Int) : α :=
  let p := sumLoop add 2 a (len.toNat + 1) (mm_setzero 2 z) 0 (len - 2)
  let s1 := mm_hadd_pd add p.1 p.1
  tailLoop add a (len.toNat + 1) (mm_store_sd s1) p.2 len

/-- One SIMD loop iteration of an elementwise kernel called with the
output buffer aliased to the first input (`sse_utils_vadds(p, p, b, len)`):
the first operand is loaded from the current state of the output buffer. -/
def simdStepA (f : α → α → α) (w : Nat) (b : Int → α) (c : Int → α) (i : Int) :
    Int → α :=
  mm_storeu w c i (mm_map2 f (mm_loadu w c i) (mm_loadu w b i))

/-- SIMD tier loop of an elementwise kernel under output/first-input
aliasing: reads of the first input go through the mutated buffer. -/
def simdLoopA (f : α → α → α) (w : Nat) (b : Int → α) :
    Nat → (Int → α) → Int → Int → (Int → α) × Int
  | 0, c, i, _ => (c, i)
  | fuel + 1, c, i, vlen =>
    if i ≤ vlen then simdLoopA f w b fuel (simdStepA f w b c i) (i + (w : Int)) vlen
    else (c, i)

/-- Scalar tail loop under output/first-input aliasing:
`c[i] = f(c[i], b[i])`. -/
def scalarLoopA (f : α → α → α) (b : Int → α) :
    Nat → (Int → α) → Int → Int → Int → α
  | 0, c, _, _ => c
  | fuel + 1, c, i, len =>
    if i < len then scalarLoopA f b fuel (store c i (f (c i) (b i))) (i + 1) len
    else c

/-- The three-tier elementwise kernel executed with the output buffer
aliased to the first input: `c` is the single shared buffer. -/
def vkernelA (f : α → α → α) (w1 w2 : Nat) (c b : Int → α) (len : Int) :
    Int → α :=
  let p1 := simdLoopA f w1 b (len.toNat + 1) c 0 (len - (w1 : Int))
  let p2 := simdLoopA f w2 b (len.toNat + 1) p1.1 p1.2 (len - (w2 : Int))
  scalarLoopA f b (len.toNat + 1) p2.1 p2.2 len

/-- `sse_utils_vadds(p, p, b, len)`: the add kernel run with the output
aliased to the first input, whose shared buffer initially holds `c`. -/
def sse_utils_vadds_aliased (add : α → α → α) (c b : Int → α) (len : Int) :
    Int → α :=
  vkernelA add 8 4 c b len

/-- `sse_utils_vmuls(p, p, b, len)`: the multiply kernel run with the
output aliased to the first input. -/
def sse_utils_vmuls_aliased (mul : α → α → α) (c b : Int → α) (len : Int) :
    Int → α :=
  vkernelA mul 8 4 c b len

/-- Outcome of the `posix_memalign(&p, 128, bytes)` call made by
`sse_utils_malloc`: the returned status, the address written to `p`,
and the size of the region that address points to.  `posix_memalign` is
libc, outside this repository; its POSIX contract is the hypothesis
`memalignContract`. -/
structure MemalignResult where
  status : Int
  addr : Int
  size : Int

/-- POSIX contract of `posix_memalign(&p, 128, bytes)`: on status 0 the
returned address is a multiple of the requested 128-byte alignment and
points to a region of at least `bytes` bytes. -/
def memalignContract (bytes : Int) (r : MemalignResult) : Prop :=
  r.status = 0 → r.addr % 128 = 0 ∧ bytes ≤ r.size

/-- `sse_utils_malloc(bytes)` (sse_utils.c:73-81): return the
`posix_memalign` pointer on status 0, else NULL (`none`). -/
def sse_utils_malloc (r : MemalignResult) : Option Int :=
  if r.status = 0 then some r.addr else none

/-- Naive sequential accumulation `for (m = 0; m < n; m++) s = add s (a (i+m))`:
`n` further elements starting at index `i`, folded left onto `s`. -/
def seqSum (add : α → α → α) (a : Int → α) : α → Int → Nat → α
  | s, _, 0 => s
  | s, i, n + 1 => seqSum add a (add s (a i)) (i + 1) n

/-- Strided accumulation: starting from `s`, add the lane-`k` elements of
`n` consecutive `w`-element chunks beginning at index `i`:
`s = add s (a (i + k))`, `i += w`, `n` times. -/
def strideSum (add : α → α → α) (a : Int → α) (w : Nat) (k : Int) :
    α → Int → Nat → α
  | s, _, 0 => s
  | s, i, n + 1 => strideSum add a w k (add s (a (i + k))) (i + (w : Int)) n

/-- The reference left-to-right sum
`for (sum = 0, i = 0; i < len; i++) sum += a[i];` from the documentation
comments of `sse_utils_sums` / `sse_utils_sumd`, over exact arithmetic. -/
def naiveSum [AddCommMonoid α] (a : Int → α) (len : Int) : α :=
  seqSum (· + ·) a 0 0 len.toNat

/-- Two's-complement wraparound to a 32-bit C `int`.  The kernels compute
their guard bounds as `vlen = len - 8` (resp. `- 4`, `- 2`) in `int`
arithmetic; for `len < INT_MIN + 8` this subtraction overflows, which is
undefined behavior in C, and on the gcc/x86 target assumed by the source
it wraps to `wrap32 (len - 8)`.  For values already in
`[-2^31, 2^31)`, `wrap32` is the identity. -/
def wrap32 (x : Int) : Int :=
  (x + 2147483648) % 4294967296 - 2147483648

/-- The wide tier of an elementwise kernel with its guard bound
`vlen = len - w1` computed as the C `int` it is, i.e. with
two's-complement wraparound on overflow, and enough fuel for the loop to
run that guard to completion.  For `len ≥ -2^31 + w1` (no overflow) the
guard bound coincides with the unbounded `tier1` one. -/
def tier1_int32 (f : α → α → α) (w1 : Nat) (c a b : Int → α) (len : Int) :
    (Int → α) × Int :=
  simdLoop f w1 a b (wrap32 (len - (w1 : Int)) + 1).toNat c 0
    (wrap32 (len - (w1 : Int)))

/-! ### Loop-invariant lemmas for the elementwise kernels -/

lemma simdStep_eq (f : α → α → α) (w : Nat) (a b c : Int → α) (i j : Int) :
    simdStep f w a b c i j =
      if i ≤ j ∧ j < i + (w : Int) then f (a j) (b j) else c j := by
  unfold simdStep mm_storeu mm_map2 mm_loadu
  by_cases h : i ≤ j ∧ j < i + (w : Int)
  · rw [dif_pos h, if_pos h]
    have hj : i + ((j - i).toNat : Int) = j := by omega
    rw [hj]
  · rw [dif_neg h, if_neg h]

lemma simdLoop_spec (f : α → α → α) (w : Nat) (hw : 0 < w) (a b : Int → α) :
    ∀ (fuel : Nat) (c : Int → α) (i vlen : Int), (vlen + 1 - i).toNat ≤ fuel →
      (∀ j, (simdLoop f w a b fuel c i vlen).1 j =
        if i ≤ j ∧ j < (simdLoop f w a b fuel c i vlen).2 then f (a j) (b j)
        else c j)
      ∧ i ≤ (simdLoop f w a b fuel c i vlen).2
      ∧ vlen < (simdLoop f w a b fuel c i vlen).2
      ∧ (i ≤ vlen → (simdLoop f w a b fuel c i vlen).2 ≤ vlen + w)
      ∧ (vlen < i → (simdLoop f w a b fuel c i vlen).2 = i)
      ∧ (w : Int) ∣ ((simdLoop f w a b fuel c i vlen).2 - i) := by
  intro fuel
  induction fuel with
  | zero =>
    intro c i vlen hf
    have hvi : vlen < i := by omega
    simp only [simdLoop]
    refine ⟨fun j => ?_, ?_, ?_, ?_, ?_, ?_⟩
    · rw [if_neg (by omega)]
    · exact le_refl i
    · exact hvi
    · intro h; omega
    · intro h; trivial
    · simp
  | succ fuel ih =>
    intro c i vlen hf
    by_cases hiv : i ≤ vlen
    · have hstep : simdLoop f w a b (fuel + 1) c i vlen =
          simdLoop f w a b fuel (simdStep f w a b c i) (i + (w : Int)) vlen := by
        simp only [simdLoop, if_pos hiv]
      obtain ⟨ih1, ih2, ih3, ih4, ih5, ih6⟩ :=
        ih (simdStep f w a b c i) (i + (w : Int)) vlen (by omega)
      rw [hstep]
      refine ⟨fun j => ?_, by omega, ih3, fun _ => ?_, fun h => absurd hiv (by omega), ?_⟩
      · rw [ih1 j, simdStep_eq]
        split_ifs with h1 h2 h3 h4 h5 <;> first | rfl | omega
      · rcases le_or_lt (i + (w : Int)) vlen with h | h
        · exact (ih4 h).trans (by omega)
        · rw [ih5 h]; omega
      · obtain ⟨k, hk⟩ := ih6
        exact ⟨k + 1, by rw [mul_add, mul_one]; omega⟩
    · have hstop : simdLoop f w a b (fuel + 1) c i vlen = (c, i) := by
        simp only [simdLoop, if_neg hiv]
      rw [hstop]
      refine ⟨fun j => ?_, le_refl i, by omega, fun h => absurd h hiv,
        fun _ => rfl, by simp⟩
      rw [if_neg (by omega)]

lemma scalarLoop_spec (f : α → α → α) (a b : Int → α) :
    ∀ (fuel : Nat) (c : Int → α) (i len : Int), (len - i).toNat ≤ fuel →
      ∀ j, scalarLoop f a b fuel c i len j =
        if i ≤ j ∧ j < len then f (a j) (b j) else c j := by
  intro fuel
  induction fuel with
  | zero =>
    intro c i len hf j
    simp only [scalarLoop]
    rw [if_neg (by omega)]
  | succ fuel ih =>
    intro c i len hf j
    by_cases hil : i < len
    · have hstep : scalarLoop f a b (fuel + 1) c i len =
          scalarLoop f a b fuel (store c i (f (a i) (b i))) (i + 1) len := by
        simp only [scalarLoop, if_pos hil]
      rw [hstep, ih (store c i (f (a i) (b i))) (i + 1) len (by omega) j]
      unfold store
      split_ifs with h1 h2 h3 h4 h5 <;> first | rfl | omega | (subst h3; rfl)
    · have hstop : scalarLoop f a b (fuel + 1) c i len = c := by
        simp only [scalarLoop, if_neg hil]
      rw [hstop, if_neg (by omega)]

lemma tiers_facts (f : α → α → α) (w1 w2 : Nat) (h1 : 0 < w1) (h2 : 0 < w2)
    (c a b : Int → α) (len : Int) :
    0 ≤ (tier1 f w1 c a b len).2
    ∧ len - w1 < (tier1 f w1 c a b len).2
    ∧ (tier1 f w1 c a b len).2 ≤ max 0 len
    ∧ (w1 : Int) ∣ (tier1 f w1 c a b len).2
    ∧ (tier1 f w1 c a b len).2 ≤ (tier2 f w1 w2 c a b len).2
    ∧ len - w2 < (tier2 f w1 w2 c a b len).2
    ∧ (tier2 f w1 w2 c a b len).2 ≤ max 0 len
    ∧ (w2 : Int) ∣ ((tier2 f w1 w2 c a b len).2 - (tier1 f w1 c a b len).2)
    ∧ (∀ j, (tier1 f w1 c a b len).1 j =
        if 0 ≤ j ∧ j < (tier1 f w1 c a b len).2 then f (a j) (b j) else c j)
    ∧ (∀ j, (tier2 f w1 w2 c a b len).1 j =
        if (tier1 f w1 c a b len).2 ≤ j ∧ j < (tier2 f w1 w2 c a b len).2 then
          f (a j) (b j)
        else (tier1 f w1 c a b len).1 j)
    ∧ (∀ j, vkernel f w1 w2 c a b len j =
        if (tier2 f w1 w2 c a b len).2 ≤ j ∧ j < len then f (a j) (b j)
        else (tier2 f w1 w2 c a b len).1 j) := by
  simp only [vkernel, tier2, tier1]
  set r1 := simdLoop f w1 a b (len.toNat + 1) c 0 (len - (w1 : Int)) with hr1
  obtain ⟨W1, I1a, I1b, I1c, I1d, I1e⟩ :=
    simdLoop_spec f w1 h1 a b (len.toNat + 1) c 0 (len - (w1 : Int)) (by omega)
  rw [← hr1] at W1 I1a I1b I1c I1d I1e
  have hb1 : r1.2 ≤ max 0 len := by
    rcases le_or_lt 0 (len - (w1 : Int)) with h | h
    · have := I1c h; omega
    · have := I1d h; omega
  set r2 := simdLoop f w2 a b (len.toNat + 1) r1.1 r1.2 (len - (w2 : Int)) with hr2
  obtain ⟨W2, I2a, I2b, I2c, I2d, I2e⟩ :=
    simdLoop_spec f w2 h2 a b (len.toNat + 1) r1.1 r1.2 (len - (w2 : Int))
      (by omega)
  rw [← hr2] at W2 I2a I2b I2c I2d I2e
  have hb2 : r2.2 ≤ max 0 len := by
    rcases le_or_lt r1.2 (len - (w2 : Int)) with h | h
    · have := I2c h; omega
    · have := I2d h; omega
  have W3 := scalarLoop_spec f a b (len.toNat + 1) r2.1 r2.2 len (by omega)
  refine ⟨I1a, I1b, hb1, by simpa using I1e, I2a, I2b, hb2, I2e,
    fun j => ?_, W2, W3⟩
  rw [W1 j]

lemma vkernel_spec (f : α → α → α) (w1 w2 : Nat) (h1 : 0 < w1) (h2 : 0 < w2)
    (c a b : Int → α) (len : Int) :
    (∀ j, 0 ≤ j → j < len → vkernel f w1 w2 c a b len j = f (a j) (b j))
    ∧ (∀ j, j < 0 ∨ len ≤ j → vkernel f w1 w2 c a b len j = c j) := by
  obtain ⟨t1, t2, t3, t4, t5, t6, t7, t8, tw1, tw2, tw3⟩ :=
    tiers_facts f w1 w2 h1 h2 c a b len
  constructor
  · intro j hj0 hjlen
    rw [tw3 j, tw2 j, tw1 j]
    split_ifs <;> first | rfl | omega
  · intro j hj
    rw [tw3 j, tw2 j, tw1 j]
    split_ifs <;> first | rfl | omega

lemma vkernel_nonpos (f : α → α → α) (w1 w2 : Nat) (h1 : 0 < w1) (h2 : 0 < w2)
    (c a b : Int → α) (len : Int) (hlen : len ≤ 0) :
    vkernel f w1 w2 c a b len = c := by
  funext j
  obtain ⟨_, hframe⟩ := vkernel_spec f w1 w2 h1 h2 c a b len
  rcases lt_or_le j 0 with h | h
  · exact hframe j (Or.inl h)
  · exact hframe j (Or.inr (by omega))

/-! ### Aliased execution agrees with the pure kernel -/

lemma simdStepA_eq_simdStep (f : α → α → α) (w : Nat) (b a c : Int → α) (i : Int)
    (hca : ∀ j, i ≤ j → c j = a j) :
    simdStepA f w b c i = simdStep f w a b c i := by
  have hload : mm_loadu w c i = mm_loadu w a i := by
    funext k
    exact hca (i + (k.val : Int)) (by omega)
  unfold simdStepA simdStep
  rw [hload]

lemma simdLoopA_eq (f : α → α → α) (w : Nat) (b a : Int → α) :
    ∀ (fuel : Nat) (c : Int → α) (i vlen : Int), (∀ j, i ≤ j → c j = a j) →
      simdLoopA f w b fuel c i vlen = simdLoop f w a b fuel c i vlen := by
  intro fuel
  induction fuel with
  | zero => intro c i vlen _; rfl
  | succ fuel ih =>
    intro c i vlen hca
    simp only [simdLoopA, simdLoop]
    by_cases hiv : i ≤ vlen
    · rw [if_pos hiv, if_pos hiv, simdStepA_eq_simdStep f w b a c i hca]
      apply ih
      intro j hj
      rw [simdStep_eq, if_neg (by omega)]
      exact hca j (by omega)
    · rw [if_neg hiv, if_neg hiv]

lemma scalarLoopA_eq (f : α → α → α) (b a : Int → α) :
    ∀ (fuel : Nat) (c : Int → α) (i len : Int), (∀ j, i ≤ j → c j = a j) →
      scalarLoopA f b fuel c i len = scalarLoop f a b fuel c i len := by
  intro fuel
  induction fuel with
  | zero => intro c i len _; rfl
  | succ fuel ih =>
    intro c i len hca
    simp only [scalarLoopA, scalarLoop]
    by_cases hil : i < len
    · rw [if_pos hil, if_pos hil, show c i = a i from hca i (le_refl i)]
      apply ih
      intro j hj
      unfold store
      rw [if_neg (by omega)]
      exact hca j (by omega)
    · rw [if_neg hil, if_neg hil]

lemma vkernelA_eq (f : α → α → α) (w1 w2 : Nat) (h1 : 0 < w1) (h2 : 0 < w2)
    (c b : Int → α) (len : Int) :
    vkernelA f w1 w2 c b len = vkernel f w1 w2 c c b len := by
  simp only [vkernelA, vkernel, tier2, tier1]
  rw [simdLoopA_eq f w1 b c (len.toNat + 1) c 0 (len - (w1 : Int))
    (fun j _ => rfl)]
  set r1 := simdLoop f w1 c b (len.toNat + 1) c 0 (len - (w1 : Int)) with hr1
  obtain ⟨W1, I1a, _, _, _, _⟩ :=
    simdLoop_spec f w1 h1 c b (len.toNat + 1) c 0 (len - (w1 : Int)) (by omega)
  rw [← hr1] at W1 I1a
  have inv1 : ∀ j, r1.2 ≤ j → r1.1 j = c j := by
    intro j hj
    rw [W1 j, if_neg (by omega)]
  rw [simdLoopA_eq f w2 b c (len.toNat + 1) r1.1 r1.2 (len - (w2 : Int)) inv1]
  set r2 := simdLoop f w2 c b (len.toNat + 1) r1.1 r1.2 (len - (w2 : Int)) with hr2
  obtain ⟨W2, I2a, _, _, _, _⟩ :=
    simdLoop_spec f w2 h2 c b (len.toNat + 1) r1.1 r1.2 (len - (w2 : Int))
      (by omega)
  rw [← hr2] at W2 I2a
  have inv2 : ∀ j, r2.2 ≤ j → r2.1 j = c j := by
    intro j hj
    rw [W2 j, if_neg (by omega)]
    exact inv1 j (by omega)
  exact scalarLoopA_eq f b c (len.toNat + 1) r2.1 r2.2 len inv2

/-! ### Loop-invariant lemmas for the sum kernels -/

lemma sumLoop_spec (add : α → α → α) (w : Nat) (hw : 0 < w) (a : Int → α) :
    ∀ (fuel : Nat) (acc : Fin w → α) (i vlen : Int), (vlen + 1 - i).toNat ≤ fuel →
      ∃ n : Nat, (sumLoop add w a fuel acc i vlen).2 = i + (w : Int) * n
        ∧ vlen < (sumLoop add w a fuel acc i vlen).2
        ∧ (i ≤ vlen → (sumLoop add w a fuel acc i vlen).2 ≤ vlen + w)
        ∧ (vlen < i → (sumLoop add w a fuel acc i vlen).2 = i)
        ∧ ∀ k : Fin w, (sumLoop add w a fuel acc i vlen).1 k =
            strideSum add a w (k.val : Int) (acc k) i n := by
  intro fuel
  induction fuel with
  | zero =>
    intro acc i vlen hf
    refine ⟨0, by simp [sumLoop], by simp only [sumLoop]; omega,
      fun h => absurd h (by omega), fun _ => by simp [sumLoop],
      fun k => by simp only [sumLoop]; rfl⟩
  | succ fuel ih =>
    intro acc i vlen hf
    by_cases hiv : i ≤ vlen
    · have hstep : sumLoop add w a (fuel + 1) acc i vlen =
          sumLoop add w a fuel (mm_map2 add acc (mm_loadu w a i))
            (i + (w : Int)) vlen := by
        simp only [sumLoop, if_pos hiv]
      obtain ⟨n, ih1, ih2, ih3, ih4, ih5⟩ :=
        ih (mm_map2 add acc (mm_loadu w a i)) (i + (w : Int)) vlen (by omega)
      rw [hstep]
      refine ⟨n + 1, ?_, ih2, fun _ => ?_, fun h => absurd hiv (by omega),
        fun k => ?_⟩
      · rw [ih1]; push_cast; ring
      · rcases le_or_lt (i + (w : Int)) vlen with h | h
        · exact (ih3 h).trans (by omega)
        · rw [ih4 h]; omega
      · rw [ih5 k]; rfl
    · have hstop : sumLoop add w a (fuel + 1) acc i vlen = (acc, i) := by
        simp only [sumLoop, if_neg hiv]
      rw [hstop]
      exact ⟨0, by simp, by omega, fun h => absurd h hiv, fun _ => rfl,
        fun k => rfl⟩

lemma tailLoop_spec (add : α → α → α) (a : Int → α) :
    ∀ (fuel : Nat) (s : α) (i len : Int), (len - i).toNat ≤ fuel →
      tailLoop add a fuel s i len = seqSum add a s i ((len - i).toNat) := by
  intro fuel
  induction fuel with
  | zero =>
    intro s i len hf
    have h0 : (len - i).toNat = 0 := by omega
    rw [h0]
    rfl
  | succ fuel ih =>
    intro s i len hf
    by_cases hil : i < len
    · have hstep : tailLoop add a (fuel + 1) s i len =
          tailLoop add a fuel (add s (a i)) (i + 1) len := by
        simp only [tailLoop, if_pos hil]
      have h1 : (len - i).toNat = (len - (i + 1)).toNat + 1 := by omega
      rw [hstep, ih (add s (a i)) (i + 1) len (by omega), h1]
      rfl
    · have hstop : tailLoop add a (fuel + 1) s i len = s := by
        simp only [tailLoop, if_neg hil]
      have h0 : (len - i).toNat = 0 := by omega
      rw [hstop, h0]
      rfl

/-- Structural characterization of `sse_utils_sums`: lanes `k < 4` of the
accumulator hold the strided sums of the chunks, folded as
`(lane0 + lane1) + (lane2 + lane3)`, then the tail is added in index
order. -/
lemma sums_spec (add : α → α → α) (z : α) (a : Int → α) (len : Int)
    (hlen : 0 ≤ len) :
    sse_utils_sums add z a len =
      seqSum add a
        (add (add (strideSum add a 4 0 z 0 (len / 4).toNat)
                  (strideSum add a 4 1 z 0 (len / 4).toNat))
             (add (strideSum add a 4 2 z 0 (len / 4).toNat)
                  (strideSum add a 4 3 z 0 (len / 4).toNat)))
        (4 * (len / 4)) ((len - 4 * (len / 4)).toNat) := by
  simp only [sse_utils_sums]
  set p := sumLoop add 4 a (len.toNat + 1) (mm_setzero 4 z) 0 (len - 4) with hp
  obtain ⟨n, hn2, hlt, hle, hstop, hlane⟩ :=
    sumLoop_spec add 4 (by norm_num) a (len.toNat + 1) (mm_setzero 4 z) 0
      (len - 4) (by omega)
  rw [← hp] at hn2 hlt hle hstop hlane
  have hn : (n : Int) = len / 4 := by
    rcases le_or_lt (0 : Int) (len - 4) with h | h
    · have := hle h; omega
    · have := hstop h; omega
  have hnn : n = (len / 4).toNat := by omega
  have hp2 : p.2 = 4 * (len / 4) := by omega
  have hfold : mm_store_ss
      (mm_hadd_ps add (mm_hadd_ps add p.1 p.1) (mm_hadd_ps add p.1 p.1)) =
      add (add (p.1 0) (p.1 1)) (add (p.1 2) (p.1 3)) := rfl
  rw [hfold, tailLoop_spec add a (len.toNat + 1) _ p.2 len (by omega)]
  have hl0 : p.1 0 = strideSum add a 4 0 z 0 (len / 4).toNat := by
    have := hlane 0; rw [hnn] at this; exact this
  have hl1 : p.1 1 = strideSum add a 4 1 z 0 (len / 4).toNat := by
    have := hlane 1; rw [hnn] at this; exact this
  have hl2 : p.1 2 = strideSum add a 4 2 z 0 (len / 4).toNat := by
    have := hlane 2; rw [hnn] at this; exact this
  have hl3 : p.1 3 = strideSum add a 4 3 z 0 (len / 4).toNat := by
    have := hlane 3; rw [hnn] at this; exact this
  rw [hl0, hl1, hl2, hl3, hp2]

/-- Structural characterization of `sse_utils_sumd`: lanes `k < 2` hold
the strided sums, folded with the single `_mm_hadd_pd` pass as
`lane0 + lane1`, then the tail is added in index order. -/
lemma sumd_spec (add : α → α → α) (z : α) (a : Int → α) (len : Int)
    (hlen : 0 ≤ len) :
    sse_utils_sumd add z a len =
      seqSum add a
        (add (strideSum add a 2 0 z 0 (len / 2).toNat)
             (strideSum add a 2 1 z 0 (len / 2).toNat))
        (2 * (len / 2)) ((len - 2 * (len / 2)).toNat) := by
  simp only [sse_utils_sumd]
  set p := sumLoop add 2 a (len.toNat + 1) (mm_setzero 2 z) 0 (len - 2) with hp
  obtain ⟨n, hn2, hlt, hle, hstop, hlane⟩ :=
    sumLoop_spec add 2 (by norm_num) a (len.toNat + 1) (mm_setzero 2 z) 0
      (len - 2) (by omega)
  rw [← hp] at hn2 hlt hle hstop hlane
  have hn : (n : Int) = len / 2 := by
    rcases le_or_lt (0 : Int) (len - 2) with h | h
    · have := hle h; omega
    · have := hstop h; omega
  have hnn : n = (len / 2).toNat := by omega
  have hp2 : p.2 = 2 * (len / 2) := by omega
  have hfold : mm_store_sd (mm_hadd_pd add p.1 p.1) =
      add (p.1 0) (p.1 1) := rfl
  rw [hfold, tailLoop_spec add a (len.toNat + 1) _ p.2 len (by omega)]
  have hl0 : p.1 0 = strideSum add a 2 0 z 0 (len / 2).toNat := by
    have := hlane 0; rw [hnn] at this; exact this
  have hl1 : p.1 1 = strideSum add a 2 1 z 0 (len / 2).toNat := by
    have := hlane 1; rw [hnn] at this; exact this
  rw [hl0, hl1, hp2]

lemma sums_nonpos (add : α → α → α) (z : α) (a : Int → α) (len : Int)
    (hlen : len ≤ 0) (hz : add z z = z) :
    sse_utils_sums add z a len = z ∧ sse_utils_sumd add z a len = z := by
  constructor
  · simp only [sse_utils_sums]
    set p := sumLoop add 4 a (len.toNat + 1) (mm_setzero 4 z) 0 (len - 4) with hp
    obtain ⟨n, hn2, _, _, hstop, hlane⟩ :=
      sumLoop_spec add 4 (by norm_num) a (len.toNat + 1) (mm_setzero 4 z) 0
        (len - 4) (by omega)
    rw [← hp] at hn2 hstop hlane
    have hn0 : n = 0 := by have := hstop (by omega); omega
    have hlz : ∀ k : Fin 4, p.1 k = z := by
      intro k
      have := hlane k
      rw [hn0] at this
      exact this
    have hfold : mm_store_ss
        (mm_hadd_ps add (mm_hadd_ps add p.1 p.1) (mm_hadd_ps add p.1 p.1)) =
        add (add (p.1 0) (p.1 1)) (add (p.1 2) (p.1 3)) := rfl
    have hp2 : p.2 = 0 := by omega
    rw [hfold, hlz 0, hlz 1, hlz 2, hlz 3, hz, hz,
      tailLoop_spec add a (len.toNat + 1) z p.2 len (by omega)]
    have h0 : (len - p.2).toNat = 0 := by omega
    rw [h0]
    rfl
  · simp only [sse_utils_sumd]
    set p := sumLoop add 2 a (len.toNat + 1) (mm_setzero 2 z) 0 (len - 2) with hp
    obtain ⟨n, hn2, _, _, hstop, hlane⟩ :=
      sumLoop_spec add 2 (by norm_num) a (len.toNat + 1) (mm_setzero 2 z) 0
        (len - 2) (by omega)
    rw [← hp] at hn2 hstop hlane
    have hn0 : n = 0 := by have := hstop (by omega); omega
    have hlz : ∀ k : Fin 2, p.1 k = z := by
      intro k
      have := hlane k
      rw [hn0] at this
      exact this
    have hfold : mm_store_sd (mm_hadd_pd add p.1 p.1) =
        add (p.1 0) (p.1 1) := rfl
    have hp2 : p.2 = 0 := by omega
    rw [hfold, hlz 0, hlz 1, hz,
      tailLoop_spec add a (len.toNat + 1) z p.2 len (by omega)]
    have h0 : (len - p.2).toNat = 0 := by omega
    rw [h0]
    rfl

/-! ### Exact-arithmetic reassociation: the vectorized sum is a
reordering of the same additions as the naive left-to-right sum -/

section ExactArith

variable [AddCommMonoid α]

lemma seqSum_eq (a : Int → α) :
    ∀ (n : Nat) (s : α) (i : Int),
      seqSum (· + ·) a s i n = s + ∑ m ∈ Finset.range n, a (i + (m : Int)) := by
  intro n
  induction n with
  | zero => intro s i; simp [seqSum]
  | succ n ih =>
    intro s i
    have hstep : seqSum (· + ·) a s i (n + 1) =
        seqSum (· + ·) a (s + a i) (i + 1) n := rfl
    rw [hstep, ih, Finset.sum_range_succ' (fun m => a (i + (m : Int))) n]
    simp only [Nat.cast_add, Nat.cast_one, Nat.cast_zero, add_zero]
    have harg : ∀ m : Nat, i + 1 + (m : Int) = i + ((m : Int) + 1) := by
      intro m; ring
    simp only [harg]
    abel

lemma strideSum_eq (a : Int → α) (w : Nat) (k : Int) :
    ∀ (n : Nat) (s : α) (i : Int),
      strideSum (· + ·) a w k s i n =
        s + ∑ m ∈ Finset.range n, a (i + (w : Int) * m + k) := by
  intro n
  induction n with
  | zero => intro s i; simp [strideSum]
  | succ n ih =>
    intro s i
    have hstep : strideSum (· + ·) a w k s i (n + 1) =
        strideSum (· + ·) a w k (s + a (i + k)) (i + (w : Int)) n := rfl
    rw [hstep, ih,
      Finset.sum_range_succ' (fun m => a (i + (w : Int) * m + k)) n]
    simp only [Nat.cast_add, Nat.cast_one, Nat.cast_zero, mul_zero, add_zero]
    have harg : ∀ m : Nat,
        i + (w : Int) + (w : Int) * m + k = i + (w : Int) * ((m : Int) + 1) + k := by
      intro m; ring
    simp only [harg]
    abel

lemma sum_range_mul (g : Nat → α) (w : Nat) :
    ∀ q : Nat, ∑ j ∈ Finset.range (w * q), g j =
      ∑ m ∈ Finset.range q, ∑ k ∈ Finset.range w, g (w * m + k) := by
  intro q
  induction q with
  | zero => simp
  | succ q ih =>
    have hsplit : w * (q + 1) = w * q + w := by ring
    rw [hsplit, Finset.sum_range_add, ih, Finset.sum_range_succ]

/-- Over exact (associative and commutative) arithmetic, the
single-precision vectorized sum equals the naive left-to-right sum. -/
lemma sums_eq_naiveSum (a : Int → α) (len : Int) (hlen : 0 ≤ len) :
    sse_utils_sums (· + ·) 0 a len = naiveSum a len := by
  rw [sums_spec (· + ·) 0 a len hlen, naiveSum, seqSum_eq, seqSum_eq,
    strideSum_eq, strideSum_eq, strideSum_eq, strideSum_eq]
  simp only [zero_add, add_zero, Nat.cast_ofNat]
  have hgroup :
      ((∑ m ∈ Finset.range (len / 4).toNat, a (4 * (m : Int))) +
        (∑ m ∈ Finset.range (len / 4).toNat, a (4 * (m : Int) + 1))) +
      ((∑ m ∈ Finset.range (len / 4).toNat, a (4 * (m : Int) + 2)) +
        (∑ m ∈ Finset.range (len / 4).toNat, a (4 * (m : Int) + 3))) =
      ∑ j ∈ Finset.range (4 * (len / 4).toNat), a (j : Int) := by
    rw [sum_range_mul (fun j => a (j : Int)) 4 (len / 4).toNat]
    have hinner : ∀ m ∈ Finset.range (len / 4).toNat,
        (∑ k ∈ Finset.range 4, a ((4 * m + k : Nat) : Int)) =
          a (4 * (m : Int)) + a (4 * (m : Int) + 1) +
          a (4 * (m : Int) + 2) + a (4 * (m : Int) + 3) := by
      intro m _
      rw [Finset.sum_range_succ, Finset.sum_range_succ, Finset.sum_range_succ,
        Finset.sum_range_one]
      push_cast
      ring_nf
    rw [Finset.sum_congr rfl hinner, Finset.sum_add_distrib,
      Finset.sum_add_distrib, Finset.sum_add_distrib]
    abel
  rw [hgroup]
  have hlen4 : len.toNat = 4 * (len / 4).toNat + (len - 4 * (len / 4)).toNat := by
    omega
  rw [hlen4, Finset.sum_range_add]
  congr 1
  refine Finset.sum_congr rfl fun m _ => ?_
  congr 1
  push_cast
  omega

/-- Over exact arithmetic, the double-precision vectorized sum equals
the naive left-to-right sum. -/
lemma sumd_eq_naiveSum (a : Int → α) (len : Int) (hlen : 0 ≤ len) :
    sse_utils_sumd (· + ·) 0 a len = naiveSum a len := by
  rw [sumd_spec (· + ·) 0 a len hlen, naiveSum, seqSum_eq, seqSum_eq,
    strideSum_eq, strideSum_eq]
  simp only [zero_add, add_zero, Nat.cast_ofNat]
  have hgroup :
      (∑ m ∈ Finset.range (len / 2).toNat, a (2 * (m : Int))) +
        (∑ m ∈ Finset.range (len / 2).toNat, a (2 * (m : Int) + 1)) =
      ∑ j ∈ Finset.range (2 * (len / 2).toNat), a (j : Int) := by
    rw [sum_range_mul (fun j => a (j : Int)) 2 (len / 2).toNat]
    have hinner : ∀ m ∈ Finset.range (len / 2).toNat,
        (∑ k ∈ Finset.range 2, a ((2 * m + k : Nat) : Int)) =
          a (2 * (m : Int)) + a (2 * (m : Int) + 1) := by
      intro m _
      rw [Finset.sum_range_succ, Finset.sum_range_one]
      push_cast
      ring_nf
    rw [Finset.sum_congr rfl hinner, Finset.sum_add_distrib]
  rw [hgroup]
  have hlen2 : len.toNat = 2 * (len / 2).toNat + (len - 2 * (len / 2)).toNat := by
    omega
  rw [hlen2, Finset.sum_range_add]
  congr 1
  refine Finset.sum_congr rfl fun m _ => ?_
  congr 1
  push_cast
  omega

end ExactArith

/-! ### Read frame: the kernels depend only on input positions
in `[0, len)` -/

lemma simdLoop_congr (f : α → α → α) (w : Nat) (a b a2 b2 : Int → α) :
    ∀ (fuel : Nat) (c : Int → α) (i vlen : Int),
      (∀ j, i ≤ j → j < vlen + w → a j = a2 j ∧ b j = b2 j) →
      simdLoop f w a b fuel c i vlen = simdLoop f w a2 b2 fuel c i vlen := by
  intro fuel
  induction fuel with
  | zero => intro c i vlen _; rfl
  | succ fuel ih =>
    intro c i vlen hab
    simp only [simdLoop]
    by_cases hiv : i ≤ vlen
    · rw [if_pos hiv, if_pos hiv]
      have hstep : simdStep f w a b c i = simdStep f w a2 b2 c i := by
        unfold simdStep
        have h1 : mm_loadu w a i = mm_loadu w a2 i := by
          funext k
          exact (hab (i + (k.val : Int)) (by omega)
            (by have := k.isLt; omega)).1
        have h2 : mm_loadu w b i = mm_loadu w b2 i := by
          funext k
          exact (hab (i + (k.val : Int)) (by omega)
            (by have := k.isLt; omega)).2
        rw [h1, h2]
      rw [hstep]
      exact ih (simdStep f w a2 b2 c i) (i + (w : Int)) vlen
        (fun j hj1 hj2 => hab j (by omega) hj2)
    · rw [if_neg hiv, if_neg hiv]

lemma scalarLoop_congr (f : α → α → α) (a b a2 b2 : Int → α) :
    ∀ (fuel : Nat) (c : Int → α) (i len : Int),
      (∀ j, i ≤ j → j < len → a j = a2 j ∧ b j = b2 j) →
      scalarLoop f a b fuel c i len = scalarLoop f a2 b2 fuel c i len := by
  intro fuel
  induction fuel with
  | zero => intro c i len _; rfl
  | succ fuel ih =>
    intro c i len hab
    simp only [scalarLoop]
    by_cases hil : i < len
    · rw [if_pos hil, if_pos hil, (hab i (le_refl i) hil).1,
        (hab i (le_refl i) hil).2]
      exact ih _ (i + 1) len (fun j hj1 hj2 => hab j (by omega) hj2)
    · rw [if_neg hil, if_neg hil]

lemma vkernel_congr (f : α → α → α) (w1 w2 : Nat) (h1 : 0 < w1) (h2 : 0 < w2)
    (c a b a2 b2 : Int → α) (len : Int)
    (hab : ∀ j, 0 ≤ j → j < len → a j = a2 j ∧ b j = b2 j) :
    vkernel f w1 w2 c a b len = vkernel f w1 w2 c a2 b2 len := by
  simp only [vkernel, tier2, tier1]
  rw [simdLoop_congr f w1 a b a2 b2 (len.toNat + 1) c 0 (len - (w1 : Int))
    (fun j hj1 hj2 => hab j hj1 (by omega))]
  set r1 := simdLoop f w1 a2 b2 (len.toNat + 1) c 0 (len - (w1 : Int)) with hr1
  obtain ⟨_, I1a, _, _, _, _⟩ :=
    simdLoop_spec f w1 h1 a2 b2 (len.toNat + 1) c 0 (len - (w1 : Int)) (by omega)
  rw [← hr1] at I1a
  rw [simdLoop_congr f w2 a b a2 b2 (len.toNat + 1) r1.1 r1.2 (len - (w2 : Int))
    (fun j hj1 hj2 => hab j (by omega) (by omega))]
  set r2 := simdLoop f w2 a2 b2 (len.toNat + 1) r1.1 r1.2 (len - (w2 : Int))
    with hr2
  obtain ⟨_, I2a, _, _, _, _⟩ :=
    simdLoop_spec f w2 h2 a2 b2 (len.toNat + 1) r1.1 r1.2 (len - (w2 : Int))
      (by omega)
  rw [← hr2] at I2a
  exact scalarLoop_congr f a b a2 b2 (len.toNat + 1) r2.1 r2.2 len
    (fun j hj1 hj2 => hab j (by omega) hj2)

lemma sumLoop_congr (add : α → α → α) (w : Nat) (a a2 : Int → α) :
    ∀ (fuel : Nat) (acc : Fin w → α) (i vlen : Int),
      (∀ j, i ≤ j → j < vlen + w → a j = a2 j) →
      sumLoop add w a fuel acc i vlen = sumLoop add w a2 fuel acc i vlen := by
  intro fuel
  induction fuel with
  | zero => intro acc i vlen _; rfl
  | succ fuel ih =>
    intro acc i vlen ha
    simp only [sumLoop]
    by_cases hiv : i ≤ vlen
    · rw [if_pos hiv, if_pos hiv]
      have hload : mm_loadu w a i = mm_loadu w a2 i := by
        funext k
        exact ha (i + (k.val : Int)) (by omega) (by have := k.isLt; omega)
      rw [hload]
      exact ih _ (i + (w : Int)) vlen (fun j hj1 hj2 => ha j (by omega) hj2)
    · rw [if_neg hiv, if_neg hiv]

lemma tailLoop_congr (add : α → α → α) (a a2 : Int → α) :
    ∀ (fuel : Nat) (s : α) (i len : Int),
      (∀ j, i ≤ j → j < len → a j = a2 j) →
      tailLoop add a fuel s i len = tailLoop add a2 fuel s i len := by
  intro fuel
  induction fuel with
  | zero => intro s i len _; rfl
  | succ fuel ih =>
    intro s i len ha
    simp only [tailLoop]
    by_cases hil : i < len
    · rw [if_pos hil, if_pos hil, ha i (le_refl i) hil]
      exact ih _ (i + 1) len (fun j hj1 hj2 => ha j (by omega) hj2)
    · rw [if_neg hil, if_neg hil]

lemma sums_congr (add : α → α → α) (z : α) (a a2 : Int → α) (len : Int)
    (ha : ∀ j, 0 ≤ j → j < len → a j = a2 j) :
    sse_utils_sums add z a len = sse_utils_sums add z a2 len
    ∧ sse_utils_sumd add z a len = sse_utils_sumd add z a2 len := by
  constructor
  · simp only [sse_utils_sums]
    rw [sumLoop_congr add 4 a a2 (len.toNat + 1) (mm_setzero 4 z) 0 (len - 4)
      (fun j hj1 hj2 => ha j hj1 (by omega))]
    set p := sumLoop add 4 a2 (len.toNat + 1) (mm_setzero 4 z) 0 (len - 4)
      with hp
    obtain ⟨n, hn2, _, _, _, _⟩ :=
      sumLoop_spec add 4 (by norm_num) a2 (len.toNat + 1) (mm_setzero 4 z) 0
        (len - 4) (by omega)
    rw [← hp] at hn2
    exact tailLoop_congr add a a2 (len.toNat + 1) _ p.2 len
      (fun j hj1 hj2 => ha j (by omega) hj2)
  · simp only [sse_utils_sumd]
    rw [sumLoop_congr add 2 a a2 (len.toNat + 1) (mm_setzero 2 z) 0 (len - 2)
      (fun j hj1 hj2 => ha j hj1 (by omega))]
    set p := sumLoop add 2 a2 (len.toNat + 1) (mm_setzero 2 z) 0 (len - 2)
      with hp
    obtain ⟨n, hn2, _, _, _, _⟩ :=
      sumLoop_spec add 2 (by norm_num) a2 (len.toNat + 1) (mm_setzero 2 z) 0
        (len - 2) (by omega)
    rw [← hp] at hn2
    exact tailLoop_congr add a a2 (len.toNat + 1) _ p.2 len
      (fun j hj1 hj2 => ha j (by omega) hj2)

lemma tier1_int32_spec (f : α → α → α) (w1 : Nat) (h1 : 0 < w1)
    (c a b : Int → α) (len : Int) :
    (∀ j, (tier1_int32 f w1 c a b len).1 j =
      if 0 ≤ j ∧ j < (tier1_int32 f w1 c a b len).2 then f (a j) (b j)
      else c j)
    ∧ wrap32 (len - (w1 : Int)) < (tier1_int32 f w1 c a b len).2 := by
  unfold tier1_int32
  obtain ⟨W, _, I3, _, _, _⟩ :=
    simdLoop_spec f w1 h1 a b (wrap32 (len - (w1 : Int)) + 1).toNat c 0
      (wrap32 (len - (w1 : Int))) (by omega)
  exact ⟨W, I3⟩

/-! ### Claim theorems -/

/-- C1: for every `len ≥ 0` and buffers `c, a, b`, after
`sse_utils_vadds` (resp. `sse_utils_vaddd`) runs, the output at every
index `i < len` equals the single correctly-rounded floating-point sum
`add (a i) (b i)`. -/
theorem vadd_pointwise (add : α → α → α) (c a b : Int → α) (len : Int)
    (_hlen : 0 ≤ len) (i : Int) (h0 : 0 ≤ i) (hi : i < len) :
    sse_utils_vadds add c a b len i = add (a i) (b i)
    ∧ sse_utils_vaddd add c a b len i = add (a i) (b i) :=
  ⟨(vkernel_spec add 8 4 (by norm_num) (by norm_num) c a b len).1 i h0 hi,
   (vkernel_spec add 4 2 (by norm_num) (by norm_num) c a b len).1 i h0 hi⟩

/-- Witness for C1 at `len = 13`, `i = 12` over `Int`. -/
theorem vadd_pointwise_witness :
    (0 : Int) ≤ 13 ∧ (0 : Int) ≤ 12 ∧ (12 : Int) < 13 ∧
    sse_utils_vadds (· + ·) (fun _ => (0 : Int)) (fun j => j) (fun j => 2 * j)
      13 12 = 36 ∧
    sse_utils_vaddd (· + ·) (fun _ => (0 : Int)) (fun j => j) (fun j => 2 * j)
      13 12 = 36 := by
  have h := vadd_pointwise (· + ·) (fun _ => (0 : Int)) (fun j => j)
    (fun j => 2 * j) 13 (by decide) 12 (by decide) (by decide)
  exact ⟨by decide, by decide, by decide, h.1.trans (by decide),
    h.2.trans (by decide)⟩

/-- C2: for every `len ≥ 0` and buffers `c, a, b`, after
`sse_utils_vmuls` (resp. `sse_utils_vmuld`) runs, the output at every
index `i < len` equals the floating-point product `mul (a i) (b i)`. -/
theorem vmul_pointwise (mul : α → α → α) (c a b : Int → α) (len : Int)
    (_hlen : 0 ≤ len) (i : Int) (h0 : 0 ≤ i) (hi : i < len) :
    sse_utils_vmuls mul c a b len i = mul (a i) (b i)
    ∧ sse_utils_vmuld mul c a b len i = mul (a i) (b i) :=
  ⟨(vkernel_spec mul 8 4 (by norm_num) (by norm_num) c a b len).1 i h0 hi,
   (vkernel_spec mul 4 2 (by norm_num) (by norm_num) c a b len).1 i h0 hi⟩

/-- Witness for C2 at `len = 9`, `i = 8` over `Int`. -/
theorem vmul_pointwise_witness :
    (0 : Int) ≤ 9 ∧ (0 : Int) ≤ 8 ∧ (8 : Int) < 9 ∧
    sse_utils_vmuls (· * ·) (fun _ => (0 : Int)) (fun j => j) (fun j => j + 1)
      9 8 = 72 ∧
    sse_utils_vmuld (· * ·) (fun _ => (0 : Int)) (fun j => j) (fun j => j + 1)
      9 8 = 72 := by
  have h := vmul_pointwise (· * ·) (fun _ => (0 : Int)) (fun j => j)
    (fun j => j + 1) 9 (by decide) 8 (by decide) (by decide)
  exact ⟨by decide, by decide, by decide, h.1.trans (by decide),
    h.2.trans (by decide)⟩

/-- C3: over exact (associative, commutative) arithmetic the vectorized
sums `sse_utils_sums` / `sse_utils_sumd` are reassociations of the same
additions as the naive left-to-right accumulation and hence equal to it;
the floating-point tolerance proportional to `len` times machine epsilon
is the standard consequence of this reassociation. -/
theorem vsum_matches_naive [AddCommMonoid α] (a : Int → α) (len : Int)
    (hlen : 0 ≤ len) :
    sse_utils_sums (· + ·) 0 a len = naiveSum a len
    ∧ sse_utils_sumd (· + ·) 0 a len = naiveSum a len :=
  ⟨sums_eq_naiveSum a len hlen, sumd_eq_naiveSum a len hlen⟩

/-- Witness for C3 at `len = 7` over `Int`. -/
theorem vsum_matches_naive_witness :
    (0 : Int) ≤ 7 ∧
    sse_utils_sums (· + ·) (0 : Int) (fun j => j) 7 = 21 ∧
    sse_utils_sumd (· + ·) (0 : Int) (fun j => j) 7 = 21 := by
  have h := vsum_matches_naive (α := Int) (fun j => j) 7 (by decide)
  exact ⟨by decide, h.1.trans (by decide), h.2.trans (by decide)⟩

/-- C4: for `len = 0` the sum kernels return exactly the zero value of
`_mm_setzero` (using only that `z + z = z`, true of IEEE `+0.0`), and
the four elementwise kernels leave the output buffer unchanged. -/
theorem len_zero_identity (add mul : α → α → α) (z : α) (hz : add z z = z)
    (c a b : Int → α) :
    sse_utils_sums add z a 0 = z ∧ sse_utils_sumd add z a 0 = z
    ∧ sse_utils_vadds add c a b 0 = c ∧ sse_utils_vaddd add c a b 0 = c
    ∧ sse_utils_vmuls mul c a b 0 = c ∧ sse_utils_vmuld mul c a b 0 = c := by
  obtain ⟨h1, h2⟩ := sums_nonpos add z a 0 (le_refl 0) hz
  exact ⟨h1, h2,
    vkernel_nonpos add 8 4 (by norm_num) (by norm_num) c a b 0 (le_refl 0),
    vkernel_nonpos add 4 2 (by norm_num) (by norm_num) c a b 0 (le_refl 0),
    vkernel_nonpos mul 8 4 (by norm_num) (by norm_num) c a b 0 (le_refl 0),
    vkernel_nonpos mul 4 2 (by norm_num) (by norm_num) c a b 0 (le_refl 0)⟩

/-- Witness for C4 over `Int`. -/
theorem len_zero_identity_witness :
    ((0 : Int) + 0 = 0) ∧
    sse_utils_sums (· + ·) (0 : Int) (fun j => j) 0 = 0 ∧
    sse_utils_vadds (· + ·) (fun _ => (5 : Int)) (fun j => j) (fun j => j) 0 =
      fun _ => (5 : Int) := by
  have h := len_zero_identity (· + ·) (· * ·) (0 : Int) (by decide)
    (fun _ => (5 : Int)) (fun j => j) (fun j => j)
  exact ⟨by decide, h.1, h.2.2.1⟩

/-- C5: in every elementwise kernel call with `len ≥ 0` the three tiers
are strictly sequential and their index ranges partition `[0, len)`: the
wide tier writes exactly `[0, i1)` with `i1 = w1 * (len / w1)` (chunks of
`w1 = 8` for 32-bit, `4` for 64-bit, while at least `w1` elements
remain), the narrow tier continues from `i1` and writes exactly
`[i1, i2)` with `i2 = w2 * (len / w2)` (`w2 = 4` resp. `2`), and the
scalar tier writes exactly the remaining `[i2, len)`, one index at a
time. -/
theorem tier_ranges_partition (f : α → α → α) (c a b : Int → α) (len : Int)
    (hlen : 0 ≤ len) :
    ((tier1 f 8 c a b len).2 = 8 * (len / 8)
     ∧ (tier2 f 8 4 c a b len).2 = 4 * (len / 4)
     ∧ 0 ≤ (tier1 f 8 c a b len).2
     ∧ (tier1 f 8 c a b len).2 ≤ (tier2 f 8 4 c a b len).2
     ∧ (tier2 f 8 4 c a b len).2 ≤ len
     ∧ (∀ j, (tier1 f 8 c a b len).1 j =
         if 0 ≤ j ∧ j < (tier1 f 8 c a b len).2 then f (a j) (b j) else c j)
     ∧ (∀ j, (tier2 f 8 4 c a b len).1 j =
         if (tier1 f 8 c a b len).2 ≤ j ∧ j < (tier2 f 8 4 c a b len).2 then
           f (a j) (b j)
         else (tier1 f 8 c a b len).1 j)
     ∧ (∀ j, vkernel f 8 4 c a b len j =
         if (tier2 f 8 4 c a b len).2 ≤ j ∧ j < len then f (a j) (b j)
         else (tier2 f 8 4 c a b len).1 j))
    ∧ ((tier1 f 4 c a b len).2 = 4 * (len / 4)
     ∧ (tier2 f 4 2 c a b len).2 = 2 * (len / 2)
     ∧ 0 ≤ (tier1 f 4 c a b len).2
     ∧ (tier1 f 4 c a b len).2 ≤ (tier2 f 4 2 c a b len).2
     ∧ (tier2 f 4 2 c a b len).2 ≤ len
     ∧ (∀ j, (tier1 f 4 c a b len).1 j =
         if 0 ≤ j ∧ j < (tier1 f 4 c a b len).2 then f (a j) (b j) else c j)
     ∧ (∀ j, (tier2 f 4 2 c a b len).1 j =
         if (tier1 f 4 c a b len).2 ≤ j ∧ j < (tier2 f 4 2 c a b len).2 then
           f (a j) (b j)
         else (tier1 f 4 c a b len).1 j)
     ∧ (∀ j, vkernel f 4 2 c a b len j =
         if (tier2 f 4 2 c a b len).2 ≤ j ∧ j < len then f (a j) (b j)
         else (tier2 f 4 2 c a b len).1 j)) := by
  constructor
  · obtain ⟨t1, t2, t3, t4, t5, t6, t7, t8, tw1, tw2, tw3⟩ :=
      tiers_facts f 8 4 (by norm_num) (by norm_num) c a b len
    exact ⟨by omega, by omega, t1, t5, by omega, tw1, tw2, tw3⟩
  · obtain ⟨t1, t2, t3, t4, t5, t6, t7, t8, tw1, tw2, tw3⟩ :=
      tiers_facts f 4 2 (by norm_num) (by norm_num) c a b len
    exact ⟨by omega, by omega, t1, t5, by omega, tw1, tw2, tw3⟩

/-- Witness for C5 at `len = 13` over `Int`. -/
theorem tier_ranges_partition_witness :
    (0 : Int) ≤ 13 ∧
    (tier1 (· + ·) 8 (fun _ => (0 : Int)) (fun j => j) (fun j => j) 13).2 = 8 ∧
    (tier2 (· + ·) 8 4 (fun _ => (0 : Int)) (fun j => j) (fun j => j) 13).2 = 12 := by
  have h := tier_ranges_partition (· + ·) (fun _ => (0 : Int)) (fun j => j)
    (fun j => j) 13 (by decide)
  exact ⟨by decide, h.1.1.trans (by decide), h.1.2.1.trans (by decide)⟩

/-- C6: the sum kernels use only the narrow register tier: each lane
`k < 4` (resp. `k < 2`) of the zero-initialized accumulator holds the
strided sum of the lane-`k` elements of the `len / 4` (resp. `len / 2`)
chunks, the lanes are folded pairwise to one scalar (two `hadd` passes
for 32-bit, one for 64-bit, giving `(l0+l1)+(l2+l3)` resp. `l0+l1`), and
the remaining elements are then added one at a time in index order. -/
theorem sum_kernel_structure (add : α → α → α) (z : α) (a : Int → α)
    (len : Int) (hlen : 0 ≤ len) :
    sse_utils_sums add z a len =
      seqSum add a
        (add (add (strideSum add a 4 0 z 0 (len / 4).toNat)
                  (strideSum add a 4 1 z 0 (len / 4).toNat))
             (add (strideSum add a 4 2 z 0 (len / 4).toNat)
                  (strideSum add a 4 3 z 0 (len / 4).toNat)))
        (4 * (len / 4)) ((len - 4 * (len / 4)).toNat)
    ∧ sse_utils_sumd add z a len =
      seqSum add a
        (add (strideSum add a 2 0 z 0 (len / 2).toNat)
             (strideSum add a 2 1 z 0 (len / 2).toNat))
        (2 * (len / 2)) ((len - 2 * (len / 2)).toNat) :=
  ⟨sums_spec add z a len hlen, sumd_spec add z a len hlen⟩

/-- Witness for C6 at `len = 6` over `Int`. -/
theorem sum_kernel_structure_witness :
    (0 : Int) ≤ 6 ∧
    sse_utils_sums (· + ·) (0 : Int) (fun j => j) 6 = 15 ∧
    sse_utils_sumd (· + ·) (0 : Int) (fun j => j) 6 = 15 := by
  have h := sum_kernel_structure (· + ·) (0 : Int) (fun j => j) 6 (by decide)
  exact ⟨by decide, h.1.trans (by decide), h.2.trans (by decide)⟩

/-- C7: calling an elementwise kernel with the output buffer aliased to
the first input produces, at every index `i < len`, the same result as
calling it with a distinct output buffer `c`. -/
theorem alias_same_result (add mul : α → α → α) (c a b : Int → α) (len : Int)
    (_hlen : 0 ≤ len) (i : Int) (h0 : 0 ≤ i) (hi : i < len) :
    sse_utils_vadds_aliased add a b len i = sse_utils_vadds add c a b len i
    ∧ sse_utils_vmuls_aliased mul a b len i = sse_utils_vmuls mul c a b len i := by
  constructor
  · exact (congrFun (vkernelA_eq add 8 4 (by norm_num) (by norm_num) a b len) i).trans
      (((vkernel_spec add 8 4 (by norm_num) (by norm_num) a a b len).1 i h0 hi).trans
        (((vkernel_spec add 8 4 (by norm_num) (by norm_num) c a b len).1 i h0 hi).symm))
  · exact (congrFun (vkernelA_eq mul 8 4 (by norm_num) (by norm_num) a b len) i).trans
      (((vkernel_spec mul 8 4 (by norm_num) (by norm_num) a a b len).1 i h0 hi).trans
        (((vkernel_spec mul 8 4 (by norm_num) (by norm_num) c a b len).1 i h0 hi).symm))

/-- Witness for C7 at `len = 13`, `i = 5` over `Int`. -/
theorem alias_same_result_witness :
    (0 : Int) ≤ 13 ∧ (0 : Int) ≤ 5 ∧ (5 : Int) < 13 ∧
    sse_utils_vadds_aliased (· + ·) (fun j => j) (fun j => 3 * j) 13 5 =
      sse_utils_vadds (· + ·) (fun _ => (0 : Int)) (fun j => j) (fun j => 3 * j)
        13 5 := by
  have h := alias_same_result (· + ·) (· * ·) (fun _ => (0 : Int)) (fun j => j)
    (fun j => 3 * j) 13 (by decide) 5 (by decide) (by decide)
  exact ⟨by decide, by decide, by decide, h.1⟩

/-- C8: the kernels touch only positions `[0, len)`: each elementwise
kernel leaves every output position outside `[0, len)` unchanged, and
every kernel reads its inputs only inside `[0, len)` (replacing the
inputs by buffers agreeing on `[0, len)` leaves the result unchanged);
the sum kernels mutate no buffer (they return only a scalar). -/
theorem kernel_frame (f add : α → α → α) (z : α) (c a b a2 b2 : Int → α)
    (len : Int)
    (ha : ∀ j, 0 ≤ j → j < len → a j = a2 j)
    (hb : ∀ j, 0 ≤ j → j < len → b j = b2 j) :
    (∀ j, j < 0 ∨ len ≤ j →
      sse_utils_vadds f c a b len j = c j ∧ sse_utils_vaddd f c a b len j = c j
      ∧ sse_utils_vmuls f c a b len j = c j
      ∧ sse_utils_vmuld f c a b len j = c j)
    ∧ sse_utils_vadds f c a b len = sse_utils_vadds f c a2 b2 len
    ∧ sse_utils_sums add z a len = sse_utils_sums add z a2 len
    ∧ sse_utils_sumd add z a len = sse_utils_sumd add z a2 len := by
  have hab : ∀ j, 0 ≤ j → j < len → a j = a2 j ∧ b j = b2 j :=
    fun j h1 h2 => ⟨ha j h1 h2, hb j h1 h2⟩
  refine ⟨fun j hj => ?_, ?_, (sums_congr add z a a2 len ha).1,
    (sums_congr add z a a2 len ha).2⟩
  · exact ⟨(vkernel_spec f 8 4 (by norm_num) (by norm_num) c a b len).2 j hj,
      (vkernel_spec f 4 2 (by norm_num) (by norm_num) c a b len).2 j hj,
      (vkernel_spec f 8 4 (by norm_num) (by norm_num) c a b len).2 j hj,
      (vkernel_spec f 4 2 (by norm_num) (by norm_num) c a b len).2 j hj⟩
  · exact vkernel_congr f 8 4 (by norm_num) (by norm_num) c a b a2 b2 len hab

/-- Witness for C8 at `len = 5` over `Int`. -/
theorem kernel_frame_witness :
    sse_utils_vadds (· + ·) (fun _ => (7 : Int)) (fun j => j) (fun j => j) 5 9
      = 7 ∧
    sse_utils_sums (· + ·) (0 : Int) (fun j => j) 5 =
      sse_utils_sums (· + ·) (0 : Int) (fun j => if j < 5 then j else 99) 5 := by
  have h := kernel_frame (· + ·) (· + ·) (0 : Int) (fun _ => (7 : Int))
    (fun j => j) (fun j => j) (fun j => if j < 5 then j else 99) (fun j => j) 5
    (fun j _ h2 => (if_pos h2).symm) (fun _ _ _ => rfl)
  exact ⟨(h.1 9 (Or.inr (by decide))).1, h.2.2.1⟩

/-- C9: `sse_utils_malloc` either returns NULL (when `posix_memalign`
reports failure) or returns the `posix_memalign` pointer, which by the
POSIX contract is 128-byte aligned and addresses at least the requested
number of bytes; it never returns a non-aligned success. -/
theorem malloc_contract (bytes : Int) (r : MemalignResult)
    (hc : memalignContract bytes r) :
    (r.status ≠ 0 → sse_utils_malloc r = none)
    ∧ ∀ p, sse_utils_malloc r = some p → p % 128 = 0 ∧ bytes ≤ r.size := by
  constructor
  · intro h
    simp [sse_utils_malloc, h]
  · intro p hp
    by_cases h : r.status = 0
    · obtain ⟨h1, h2⟩ := hc h
      simp only [sse_utils_malloc, if_pos h, Option.some_inj] at hp
      rw [← hp]
      exact ⟨h1, h2⟩
    · simp [sse_utils_malloc, h] at hp

/-- Witness for C9: a successful 128-byte aligned allocation of 64
bytes at address 256. -/
theorem malloc_contract_witness :
    memalignContract 64 ⟨0, 256, 100⟩ ∧ (256 : Int) % 128 = 0 ∧ (64 : Int) ≤ 100 :=
  ⟨fun _ => ⟨by decide, by decide⟩,
   (malloc_contract 64 ⟨0, 256, 100⟩ (fun _ => ⟨by decide, by decide⟩)).2 256 rfl⟩

/-- C10 counterexample: the claim fails at `len = -2147483648`
(`INT_MIN`).  In the source the wide-tier guard bound is the C `int`
`vlen = len - 8` (sse_utils.c:96), which overflows: with the target's
two's-complement wraparound it equals `2147483640 ≥ 0`, so the guard
`i <= vlen` is true at `i = 0`, the loop body runs, and the first chunk
is written — `out[0] = a[0] + b[0]`, not the untouched `c[0]`.  So the
kernel is not a no-op at this negative length. -/
theorem negative_len_noop_counterexample :
    (-2147483648 : Int) < 0 ∧
    wrap32 (-2147483648 - 8) = 2147483640 ∧
    (tier1_int32 (· + ·) 8 (fun _ => (0 : Int)) (fun _ => 1) (fun _ => 2)
      (-2147483648)).1 0 = 3 := by
  refine ⟨by decide, by decide, ?_⟩
  obtain ⟨W, hgt⟩ := tier1_int32_spec (· + ·) 8 (by norm_num)
    (fun _ => (0 : Int)) (fun _ => 1) (fun _ => 2) (-2147483648)
  have hw : wrap32 ((-2147483648 : Int) - ((8 : Nat) : Int)) = 2147483640 := by
    decide
  rw [W 0, if_pos ⟨le_refl 0, by omega⟩]
  decide

/-- C10 (amended): for every negative `len` with
`-2^31 + 8 ≤ len < 0` — so that none of the C `int` guard-bound
subtractions `len - 8`, `len - 4`, `len - 2` overflows, and the `int`
arithmetic coincides with the unbounded model — every loop guard is
false at `i = 0`: the wide tier (modelled with the `int` wraparound
semantics) runs no iteration, the four elementwise kernels leave the
output buffer unchanged, and the sum kernels return exactly the
`_mm_setzero` zero (using only `z + z = z`, true of IEEE `+0.0`). -/
theorem negative_len_noop_bounded (add mul : α → α → α) (z : α)
    (hz : add z z = z) (c a b : Int → α) (len : Int)
    (hlo : -2147483648 + 8 ≤ len) (hhi : len < 0) :
    wrap32 (len - 8) = len - 8 ∧ wrap32 (len - 4) = len - 4
    ∧ wrap32 (len - 2) = len - 2
    ∧ tier1_int32 add 8 c a b len = (c, 0)
    ∧ sse_utils_vadds add c a b len = c ∧ sse_utils_vaddd add c a b len = c
    ∧ sse_utils_vmuls mul c a b len = c ∧ sse_utils_vmuld mul c a b len = c
    ∧ sse_utils_sums add z a len = z ∧ sse_utils_sumd add z a len = z := by
  obtain ⟨h1, h2⟩ := sums_nonpos add z a len (by omega) hz
  have ht : tier1_int32 add 8 c a b len = (c, 0) := by
    unfold tier1_int32
    have hw8 : wrap32 (len - ((8 : Nat) : Int)) = len - 8 := by
      unfold wrap32; omega
    rw [hw8]
    have hf : (len - 8 + 1).toNat = 0 := by omega
    rw [hf]
    rfl
  exact ⟨by unfold wrap32; omega, by unfold wrap32; omega,
    by unfold wrap32; omega, ht,
    vkernel_nonpos add 8 4 (by norm_num) (by norm_num) c a b len (by omega),
    vkernel_nonpos add 4 2 (by norm_num) (by norm_num) c a b len (by omega),
    vkernel_nonpos mul 8 4 (by norm_num) (by norm_num) c a b len (by omega),
    vkernel_nonpos mul 4 2 (by norm_num) (by norm_num) c a b len (by omega),
    h1, h2⟩

/-- Witness for the amended C10 at `len = -1` over `Int`. -/
theorem negative_len_noop_bounded_witness :
    ((0 : Int) + 0 = 0) ∧ (-2147483648 + 8 : Int) ≤ -1 ∧ (-1 : Int) < 0 ∧
    wrap32 (-1 - 8) = -9 ∧
    sse_utils_sums (· + ·) (0 : Int) (fun j => j) (-1) = 0 ∧
    sse_utils_vmuls (· * ·) (fun _ => (3 : Int)) (fun j => j) (fun j => j) (-1)
      = fun _ => (3 : Int) := by
  have h := negative_len_noop_bounded (· + ·) (· * ·) (0 : Int) (by decide)
    (fun _ => (3 : Int)) (fun j => j) (fun j => j) (-1) (by decide) (by decide)
  exact ⟨by decide, by decide, by decide, h.1.trans (by decide),
    h.2.2.2.2.2.2.2.2.1, h.2.2.2.2.2.2.1⟩

end SseUtils
